import Mathlib

/-!
Verification of the Outremer entity-resolution core.

Shallow embedding of the repository's Python sources:
  scripts/run_pipeline.py        (normalise, build_authority_lookup,
                                  _fuzzy_score, _status, link_voyagers_to_outremer)
  scripts/build_unified_kg.py    (normalise, slugify, match_persons)
  scripts/wikidata_reconcile.py  (is_medieval_person, the run() query guard)

Strings are modelled as lists of Unicode codepoints (`List Nat`).  The
Unicode primitives used by `normalise` (NFKD decomposition, combining-mark
classification, the regex classes \w and \s, str.lower) are modelled on the
ASCII fragment plus a small sample of decomposable Latin letters; this is
the fragment the repository's data exercises and it is faithful to the
Python semantics on that fragment.  Python floats are modelled as rationals.
-/

namespace Outremer

/-! ### Codepoint-level Unicode model -/

/-- Combining marks: the Combining Diacritical Marks block U+0300..U+036F. -/
def pyCombining (c : Nat) : Bool := 768 ≤ c && c ≤ 879

/-- NFKD decomposition, modelled on a sample of precomposed Latin letters
(é É à; every other modelled codepoint is NFKD-stable). -/
def pyNFKD (c : Nat) : List Nat :=
  if c = 233 then [101, 769]
  else if c = 201 then [69, 769]
  else if c = 224 then [97, 768]
  else [c]

/-- The regex class \w on the modelled fragment: ASCII digits, letters, underscore. -/
def pyIsWord (c : Nat) : Bool :=
  (48 ≤ c && c ≤ 57) || (65 ≤ c && c ≤ 90) || (97 ≤ c && c ≤ 122) || c = 95

/-- The regex class \s (Python whitespace): space, tab, LF, VT, FF, CR. -/
def pyIsSpace (c : Nat) : Bool :=
  c = 32 || c = 9 || c = 10 || c = 11 || c = 12 || c = 13

/-- str.lower on the modelled fragment: ASCII uppercase to lowercase. -/
def pyLower (c : Nat) : Nat := if 65 ≤ c && c ≤ 90 then c + 32 else c

/-! ### The name normalizer

`normalise` in run_pipeline.py and build_unified_kg.py (identical copies):

    s = unicodedata.normalize("NFKD", s)
    s = "".join(c for c in s if not unicodedata.combining(c))
    s = re.sub(r"[^\w\s]", " ", s)
    return re.sub(r"\s+", " ", s).lower().strip()
-/

/-- NFKD-decompose then drop combining marks (lines 49-50 of run_pipeline.py). -/
def stripAccents (s : List Nat) : List Nat :=
  (s.flatMap pyNFKD).filter (fun c => !pyCombining c)

/-- re.sub(r"[^\w\s]", " ", s): any char neither word nor space becomes a space. -/
def punctToSpace (s : List Nat) : List Nat :=
  s.map (fun c => if pyIsWord c || pyIsSpace c then c else 32)

/-- Collapse adjacent duplicates of the codepoint `r`. -/
def squeezeRep (r : Nat) : List Nat → List Nat
  | [] => []
  | [c] => [c]
  | a :: b :: rest =>
      if a = r && b = r then squeezeRep r (b :: rest)
      else a :: squeezeRep r (b :: rest)

/-- re.sub over a character class: map every char of the class to `r`, then
collapse runs of `r`.  Equivalent to replacing each maximal run of the class
by a single `r`, since `r` itself belongs to every class used below. -/
def mapSqueeze (bad : Nat → Bool) (r : Nat) (s : List Nat) : List Nat :=
  squeezeRep r (s.map (fun c => if bad c then r else c))

/-- re.sub(r"\s+", " ", s). -/
def collapseWS (s : List Nat) : List Nat := mapSqueeze pyIsSpace 32 s

/-- str.lower(). -/
def lowerAll (s : List Nat) : List Nat := s.map pyLower

/-- str.strip(): drop leading and trailing whitespace. -/
def pyStrip (s : List Nat) : List Nat :=
  ((s.dropWhile pyIsSpace).reverse.dropWhile pyIsSpace).reverse

/-- The name normalizer of run_pipeline.py lines 47-52 and
build_unified_kg.py lines 23-28, at the codepoint level. -/
def normaliseL (s : List Nat) : List Nat :=
  pyStrip (lowerAll (collapseWS (punctToSpace (stripAccents s))))

def strToCodes (s : String) : List Nat := s.data.map Char.toNat

def codesToStr (l : List Nat) : String := String.mk (l.map Char.ofNat)

/-- The name normalizer on Lean strings. -/
def normaliseStr (s : String) : String := codesToStr (normaliseL (strToCodes s))

/-! ### slugify (build_unified_kg.py lines 335-339)

    s = name.lower().strip()
    s = re.sub(r"[^a-z0-9]+", "-", s)
    s = re.sub(r"-+", "-", s).strip("-")
    return s or "person"
-/

def isLowerAlnum (c : Nat) : Bool := (97 ≤ c && c ≤ 122) || (48 ≤ c && c ≤ 57)

/-- str.strip("-"): drop leading and trailing hyphens (codepoint 45). -/
def stripDash (s : List Nat) : List Nat :=
  ((s.dropWhile (fun c => c = 45)).reverse.dropWhile (fun c => c = 45)).reverse

def slugifyL (s : List Nat) : List Nat :=
  let t := pyStrip (lowerAll s)
  let u := mapSqueeze (fun c => !isLowerAlnum c) 45 t
  let v := stripDash (squeezeRep 45 u)
  if v = [] then [112, 101, 114, 115, 111, 110] else v

/-- slugify of build_unified_kg.py (default "person"). -/
def slugify (s : String) : String := codesToStr (slugifyL (strToCodes s))

/-- str.strip() on Lean strings. -/
def stripStr (s : String) : String := codesToStr (pyStrip (strToCodes s))

/-! ### The similarity scorer (run_pipeline.py)

`_fuzzy_score` (lines 156-166): rapidfuzz is an optional external
dependency; the in-repository ImportError fallback is embedded:

    set_a, set_b = set(a.split()), set(b.split())
    if not set_a or not set_b: return 0.0
    return len(set_a & set_b) / max(len(set_a), len(set_b))
-/

/-- Python substring containment `a in b`: a is a contiguous infix of b. -/
def isSubstr (a b : List Nat) : Bool := decide (a <:+: b)

/-- str.split() helper: split at each whitespace char (empty pieces kept). -/
def splitChunks (s : List Nat) : List (List Nat) :=
  s.foldr
    (fun c acc =>
      if pyIsSpace c then [] :: acc
      else
        match acc with
        | [] => [[c]]
        | t :: ts => (c :: t) :: ts)
    [[]]

/-- str.split(): whitespace-separated tokens, empty pieces dropped. -/
def splitWs (s : List Nat) : List (List Nat) :=
  (splitChunks s).filter (fun t => t ≠ [])

/-- set(s.split()): the distinct whitespace tokens. -/
def tokenSet (s : List Nat) : List (List Nat) := (splitWs s).dedup

/-- The fallback fuzzy score of _fuzzy_score: shared distinct tokens over
the larger token count. -/
def fuzzyFallback (a b : List Nat) : ℚ :=
  let A := tokenSet a
  let B := tokenSet b
  if A = [] || B = [] then 0
  else ((A.filter (fun t => t ∈ B)).length : ℚ) / ((max A.length B.length : Nat) : ℚ)

/-- The per-variant scoring loop body of link_voyagers_to_outremer
(lines 204-223), with running best (score, match type) and early exit on
an exact match. -/
def bestVariant (p : List Nat) : List (List Nat) → ℚ × String → ℚ × String
  | [], best => best
  | v :: rest, best =>
      if p = v then (1, "exact")
      else if isSubstr p v || isSubstr v p then
        let s := max p.length v.length
        let m := min p.length v.length
        let sub : ℚ := if 0 < s then (m : ℚ) / (s : ℚ) else 0
        bestVariant p rest (if best.1 < sub then (sub, "alias") else best)
      else
        let fs := fuzzyFallback p v
        bestVariant p rest (if best.1 < fs then (fs, "fuzzy") else best)

/-- The score and tier the linker assigns to one (mention, variant) pair:
the loop body of lines 204-223 run on a single variant starting from the
initial best (0.0, "fuzzy").  In the final branch `(fs, "fuzzy")` equals
the code's `if fs > 0 then (fs, "fuzzy") else (0, "fuzzy")` because the
fallback fuzzy score is nonnegative. -/
def scorePair (p v : List Nat) : ℚ × String :=
  if p = v then (1, "exact")
  else if isSubstr p v || isSubstr v p then
    let s := max p.length v.length
    let m := min p.length v.length
    let sub : ℚ := if 0 < s then (m : ℚ) / (s : ℚ) else 0
    if 0 < sub then (sub, "alias") else (0, "fuzzy")
  else (fuzzyFallback p v, "fuzzy")

/-- The status classifier _status (run_pipeline.py lines 169-176). -/
def status (score : ℚ) : String :=
  if 0.90 ≤ score then "high"
  else if 0.75 ≤ score then "medium"
  else if 0.60 ≤ score then "low"
  else "no_match"

/-- Rank of a status tier, for the monotonicity property: a larger rank is
a better tier ("no_match" and any other string rank 0). -/
def tierRank (st : String) : Nat :=
  if st = "high" then 3 else if st = "medium" then 2 else if st = "low" then 1 else 0

/-! ### The mention linker (run_pipeline.py lines 179-271) -/

/-- One flattened authority entry produced by build_authority_lookup. -/
structure AuthEntry where
  authorityId : String
  preferredLabel : String
  atype : String
  allNorms : List String
deriving DecidableEq, Repr

/-- One extracted person mention as consumed by the linker (the fields the
linker reads: "name" and "group"). -/
structure PersonMention where
  name : String
  group : Bool := false
deriving DecidableEq, Repr

/-- One scored candidate of a link (the `round(score, 4)` presentation
rounding is omitted; it is applied uniformly to every stored score). -/
structure Candidate where
  outremerId : String
  outremerName : String
  ctype : String
  score : ℚ
  matchType : String
deriving DecidableEq, Repr

/-- One link object emitted by the linker. -/
structure Link where
  person : String
  personGroup : Bool
  candidates : List Candidate
  top : Option Candidate
  confidence : ℚ
  linkStatus : String
deriving DecidableEq, Repr

/-- The deduplication key: (mention name, best-candidate id), with the
pseudo-id "__none__" when there is no best candidate (lines 258-262). -/
def linkKey (l : Link) : String × String :=
  (l.person, match l.top with | some c => c.outremerId | none => "__none__")

/-- One step of the deduplication loop (lines 260-269): if the key is
already present, keep the entry with the strictly higher confidence,
otherwise append. -/
def dedupStep : List Link → Link → List Link
  | [], l => [l]
  | x :: rest, l =>
      if linkKey x = linkKey l then
        if x.confidence < l.confidence then l :: rest else x :: rest
      else x :: dedupStep rest l

/-- The deduplication pass of link_voyagers_to_outremer (lines 257-271). -/
def dedupLinks (links : List Link) : List Link := links.foldl dedupStep []

/-- Score one mention against every authority entry, keeping entries whose
best variant score meets the threshold (lines 199-226). -/
def scoreEntries (pnorm : List Nat) (lookup : List AuthEntry) (minScore : ℚ) :
    List (ℚ × String × AuthEntry) :=
  lookup.filterMap (fun entry =>
    let best := bestVariant pnorm (entry.allNorms.map strToCodes) (0, "fuzzy")
    if minScore ≤ best.1 then some (best.1, best.2, entry) else none)

/-- The link object built for one mention (lines 228-255). -/
def mkLink (pname : String) (pgroup : Bool) (scored : List (ℚ × String × AuthEntry))
    (topK : Nat) : Link :=
  let sorted := scored.mergeSort (fun a b => b.1 ≤ a.1)
  let tops := sorted.take topK
  let candidates := tops.map (fun t =>
    { outremerId := t.2.2.authorityId
      outremerName := t.2.2.preferredLabel
      ctype := t.2.2.atype
      score := t.1
      matchType := t.2.1
      : Candidate })
  let top := candidates.head?
  let confidence := match top with | some c => c.score | none => 0
  { person := pname
    personGroup := pgroup
    candidates := candidates
    top := top
    confidence := confidence
    linkStatus := match top with | some _ => status confidence | none => "no_match" }

/-- link_voyagers_to_outremer (run_pipeline.py lines 179-271): one link per
nonempty mention, then the deduplication pass. -/
def linkVoyagers (persons : List PersonMention) (lookup : List AuthEntry)
    (topK : Nat := 3) (minScore : ℚ := 0.60) : List Link :=
  dedupLinks (persons.filterMap (fun p =>
    let pname := stripStr p.name
    if pname = "" then none
    else
      let pnorm := strToCodes (normaliseStr pname)
      some (mkLink pname p.group (scoreEntries pnorm lookup minScore) topK)))

/-! ### The authority index builder (run_pipeline.py lines 93-149) -/

/-- Python `a or b` on strings with the empty string falsy. -/
def pyOrS (a : Option String) (b : String) : String :=
  match a with
  | some s => if s = "" then b else s
  | none => b

/-- One raw authority record, covering the shapes build_authority_lookup
handles without raising: the "name" field is either a plain string (used as
a label fallback) or a block whose "raw" sub-field contributes a variant.
Non-string entries of a variants list are skipped by the code's isinstance
guard and are left out of the model. -/
structure RawAuthRecord where
  authorityId : Option String := none
  preferredLabel : Option String := none
  nameStr : Option String := none
  nameRaw : Option String := none
  rtype : String := "person"
  variants : List String := []
  normPreferred : Option String := none
  normVariants : List String := []
deriving DecidableEq, Repr

/-- Line 104: `(e.get("authority_id") or "").strip()`. -/
def authIdOf (e : RawAuthRecord) : String := stripStr (pyOrS e.authorityId "")

/-- Line 105: `(e.get("preferred_label") or e.get("name") or "").strip()`. -/
def labelOf (e : RawAuthRecord) : String :=
  stripStr (pyOrS e.preferredLabel (pyOrS e.nameStr ""))

/-- Lines 109-128: the raw variant strings collected for one record. -/
def rawVariants (e : RawAuthRecord) : List String :=
  [labelOf e]
  ++ e.variants.filterMap (fun v => if stripStr v = "" then none else some (stripStr v))
  ++ (match e.normPreferred with
      | some s => if s = "" then [] else [s]
      | none => [])
  ++ e.normVariants.filterMap (fun v => if stripStr v = "" then none else some (stripStr v))
  ++ (match e.nameRaw with
      | some s => if s = "" then [] else [s]
      | none => [])

/-- Keep the first occurrence of every string (the `seen` set of lines 131-137). -/
def dedupFirstAux (seen : List String) : List String → List String
  | [] => []
  | v :: rest =>
      if v ∈ seen then dedupFirstAux seen rest
      else v :: dedupFirstAux (v :: seen) rest

def dedupFirst (l : List String) : List String := dedupFirstAux [] l

/-- Lines 130-137: normalise every variant, drop empties, dedup keeping the
first occurrence. -/
def allNormsOf (e : RawAuthRecord) : List String :=
  dedupFirst (((rawVariants e).map normaliseStr).filter (fun n => n ≠ ""))

/-- build_authority_lookup (run_pipeline.py lines 93-149): flatten records
into matchable entries, skipping a record when its id or its label is empty
(line 139: `if not auth_id or not label: continue`). -/
def build_authority_lookup (entries : List RawAuthRecord) : List AuthEntry :=
  entries.filterMap (fun e =>
    if authIdOf e = "" ∨ labelOf e = "" then none
    else some
      { authorityId := authIdOf e
        preferredLabel := labelOf e
        atype := e.rtype
        allNorms := allNormsOf e })

/-! ### The multi-source merger (build_unified_kg.py lines 232-332)

The unified graph is a Python dict keyed by canonical id; it is modelled as
an insertion-ordered association list with dict assignment semantics
(update in place when the key exists, append otherwise).  Entity fields
that match_persons neither reads nor writes except as constants
(roles, relationships, places, birth/death dates, timestamps) are omitted.
-/

/-- One provenance entry of an entity. -/
structure Prov where
  ptype : String
  matchType : Option String := none
  confidence : ℚ := 1
  sourceFile : Option String := none
deriving DecidableEq, Repr

/-- The name bag of an entity. -/
structure EntityNames where
  preferred : String
  variants : List String
  normalized : List String
deriving DecidableEq, Repr

/-- One unified entity (the merger's record shape). -/
structure Entity where
  eid : String
  preferredLabel : String
  identifiers : List (String × String)
  names : EntityNames
  gender : String := "unknown"
  provenance : List Prov
  needsReview : Bool := false
deriving DecidableEq, Repr

/-- One extracted person mention as consumed by the merger. -/
structure Mention where
  name : String
  gender : String := "unknown"
  confidence : Option ℚ := none
  sourceDoc : Option String := none
deriving DecidableEq, Repr

/-- Dict lookup on an association list. -/
def dfind (u : List (String × α)) (k : String) : Option α :=
  match u with
  | [] => none
  | (k2, v) :: rest => if k2 = k then some v else dfind rest k

/-- Dict assignment: update in place when the key exists, else append. -/
def dinsert (u : List (String × α)) (k : String) (v : α) : List (String × α) :=
  match u with
  | [] => [(k, v)]
  | (k2, w) :: rest => if k2 = k then (k, v) :: rest else (k2, w) :: dinsert rest k v

/-- Mutate the value stored at a key (no-op when the key is absent). -/
def dmodify (u : List (String × α)) (k : String) (f : α → α) : List (String × α) :=
  match u with
  | [] => []
  | (k2, w) :: rest => if k2 = k then (k2, f w) :: rest else (k2, w) :: dmodify rest k f

/-- Append `v` to the id list stored under the key `k` (lines 247-250,
255-257): a missing key starts from the empty list. -/
def multiAdd (idx : List (String × List String)) (k v : String) :
    List (String × List String) :=
  match idx with
  | [] => [(k, [v])]
  | (k2, vs) :: rest =>
      if k2 = k then (k2, vs ++ [v]) :: rest else (k2, vs) :: multiAdd rest k v

/-- The reverse index normalized-name -> authority ids (lines 245-250). -/
def buildAuthIndex (authority : List (String × Entity)) : List (String × List String) :=
  authority.foldl
    (fun idx kv => kv.2.names.normalized.foldl (fun idx2 n => multiAdd idx2 n kv.1) idx)
    []

/-- The reverse index normalized-label -> QIDs (lines 252-257). -/
def buildWdIndex (wikidata : List (String × Entity)) : List (String × List String) :=
  wikidata.foldl (fun idx kv => multiAdd idx (normaliseStr kv.2.preferredLabel) kv.1) []

/-- The provenance entry appended on a unique match (lines 271-275). -/
def wdExactProv : Prov := { ptype := "wikidata", matchType := some "exact", confidence := 1 }

/-- Lines 270-275: add the QID to the identifier map and append one
provenance entry. -/
def addWdIdentifier (qid : String) (e : Entity) : Entity :=
  { e with
      identifiers := dinsert e.identifiers "wikidata_qid" qid
      provenance := e.provenance ++ [wdExactProv] }

/-- One iteration of the Wikidata-to-authority matching loop
(lines 261-276): apply the merge only when the reverse index maps the
normalized label to exactly one authority id. -/
def applyWdMatch (authIdx : List (String × List String)) (u : List (String × Entity))
    (qid : String) (wd : Entity) : List (String × Entity) :=
  match dfind authIdx (normaliseStr wd.preferredLabel) with
  | some ids =>
      match ids with
      | [a] => dmodify u a (addWdIdentifier qid)
      | _ => u
  | none => u

/-- The membership test of line 282 as written: it asks whether the literal
string "wikidata_qid" occurs among the entities' wikidata_qid identifier
values (not whether the current qid does). -/
def wdAlreadyFlag (u : List (String × Entity)) : Bool :=
  u.any (fun kv => dfind kv.2.identifiers "wikidata_qid" == some "wikidata_qid")

/-- Lines 280-283: the loop that adds Wikidata persons to the unified graph. -/
def addWdPersons (wikidata : List (String × Entity)) (u0 : List (String × Entity)) :
    List (String × Entity) :=
  wikidata.foldl
    (fun u kv => if wdAlreadyFlag u then u else dinsert u ("WIKIDATA:" ++ kv.1) kv.2)
    u0

/-- The new entity synthesized for an unmatched extracted mention
(lines 300-330). -/
def mkExtractedEntity (m : Mention) : Entity :=
  { eid := "EXTRACTED:" ++ slugify m.name
    preferredLabel := m.name
    identifiers := []
    names :=
      { preferred := m.name
        variants := [m.name]
        normalized := [normaliseStr m.name] }
    gender := m.gender
    provenance :=
      [{ ptype := "extraction"
         confidence := m.confidence.getD (1 / 2)
         sourceFile := m.sourceDoc }]
    needsReview := true }

/-- One iteration of the extracted-mentions loop (lines 286-330): skip
names that are empty or shorter than 3 characters, skip names whose
normalized form is a key of either reverse index, otherwise add a new
EXTRACTED entity. -/
def processMention (authIdx wdIdx : List (String × List String))
    (u : List (String × Entity)) (m : Mention) : List (String × Entity) :=
  if m.name = "" ∨ m.name.length < 3 then u
  else if (dfind authIdx (normaliseStr m.name)).isSome ||
      (dfind wdIdx (normaliseStr m.name)).isSome then u
  else dinsert u ("EXTRACTED:" ++ slugify m.name) (mkExtractedEntity m)

/-- match_persons (build_unified_kg.py lines 232-332). -/
def match_persons (authority wikidata : List (String × Entity))
    (extracted : List Mention) : List (String × Entity) :=
  let authIdx := buildAuthIndex authority
  let wdIdx := buildWdIndex wikidata
  let u1 := wikidata.foldl (fun u kv => applyWdMatch authIdx u kv.1 kv.2) authority
  let u2 := addWdPersons wikidata u1
  extracted.foldl (processMention authIdx wdIdx) u2

/-! ### The reconciliation client (wikidata_reconcile.py) -/

/-- The fixed historical cutoff (line 46). -/
def MEDIEVAL_CUTOFF_YEAR : Nat := 1500

/-- Python truthiness of an optional year: present and nonzero. -/
def truthy (x : Option Nat) : Bool :=
  match x with
  | some n => n != 0
  | none => false

/-- is_medieval_person (wikidata_reconcile.py lines 102-127), with the
Python `if year and year <= cutoff` truthiness tests kept as written. -/
def is_medieval_person (birth death : Option Nat) : Bool :=
  if birth = none ∧ death = none then true
  else if truthy birth && decide (birth.getD 0 ≤ MEDIEVAL_CUTOFF_YEAR) then true
  else if truthy death && decide (death.getD 0 ≤ MEDIEVAL_CUTOFF_YEAR) then true
  else if truthy birth && truthy death && decide (MEDIEVAL_CUTOFF_YEAR < birth.getD 0) then false
  else true

/-- The per-candidate plausibility filter of reconcile_person
(lines 219-229), over candidates paired with their fetched lifespan. -/
def filterMedieval (rs : List (String × Option Nat × Option Nat)) :
    List (String × Option Nat × Option Nat) :=
  rs.filter (fun r => is_medieval_person r.2.1 r.2.2)

/-- The query guard of run() (wikidata_reconcile.py lines 281-304): a link
is queried only when its status is "no_match", its stripped person name is
nonempty and at least 3 characters, it is not a collective, and its
normalized name is not already cached. -/
def queriesFor (l : Link) (cache : List String) : Bool :=
  l.linkStatus == "no_match" &&
    (let person := stripStr l.person
     !(person == "" || decide (person.length < 3)) && !l.personGroup &&
       !(cache.contains (normaliseStr person)))

/-! ### Derived notions used by the verification -/

/-- A codepoint that can occur in normalizer output besides the space:
a word character that is not an uppercase ASCII letter. -/
def okChar (c : Nat) : Bool := pyIsWord c && !(65 ≤ c && c ≤ 90)

/-- Normal form of the name normalizer: only lowercase word characters and
single spaces, with no leading or trailing space. -/
def NF (s : List Nat) : Prop :=
  (∀ c ∈ s, okChar c = true ∨ c = 32) ∧
  List.Chain' (fun a b => ¬(a = 32 ∧ b = 32)) s ∧
  (∀ h, s.head? = some h → h ≠ 32) ∧
  (∀ h, s.getLast? = some h → h ≠ 32)

/-- An entity's identity is preserved up to the merge extensions the
matching step may apply: every field except the identifier map and the
provenance list is unchanged, the original provenance entries stay in
place, and every identifier other than "wikidata_qid" is untouched. -/
def preservesIdentity (e e2 : Entity) : Prop :=
  e2.eid = e.eid ∧ e2.preferredLabel = e.preferredLabel ∧ e2.names = e.names ∧
  e2.gender = e.gender ∧ e2.needsReview = e.needsReview ∧
  List.IsPrefix e.provenance e2.provenance ∧
  ∀ ik, ik ≠ "wikidata_qid" → dfind e2.identifiers ik = dfind e.identifiers ik

/-- Phrasing of the (corrected) C3 retention rule: a raw record is kept
exactly when its stripped id and its stripped label are both nonempty. -/
def keepRecord (e : RawAuthRecord) : Bool := decide (authIdOf e ≠ "" ∧ labelOf e ≠ "")

/-- The entry build_authority_lookup produces for a retained record. -/
def mkAuthEntry (e : RawAuthRecord) : AuthEntry :=
  { authorityId := authIdOf e
    preferredLabel := labelOf e
    atype := e.rtype
    allNorms := allNormsOf e }

/-- The spec's Baldwin scenario: the single curated authority entity. -/
def baldwinE : Entity :=
  { eid := "AUTH:1"
    preferredLabel := "Baldwin"
    identifiers := [("outremer_auth", "AUTH:1")]
    names := { preferred := "Baldwin", variants := [], normalized := ["baldwin"] }
    provenance := [{ ptype := "authority", sourceFile := some "unknown" }] }

/-- The spec's Baldwin scenario: the external-export record for QID Q999. -/
def q999E : Entity :=
  { eid := "WIKIDATA:Q999"
    preferredLabel := "Baldwin"
    identifiers := [("wikidata_qid", "Q999")]
    names := { preferred := "Baldwin", variants := ["Baldwin"], normalized := ["baldwin"] }
    provenance := [{ ptype := "wikidata" }] }

/-- Invariant of the deduplication loop: the accumulator has pairwise
distinct keys, only holds already-processed links, and dominates every
processed link of its key group. -/
def dedupInv (processed acc : List Link) : Prop :=
  acc.Pairwise (fun a b => linkKey a ≠ linkKey b) ∧
  (∀ r ∈ acc, r ∈ processed) ∧
  (∀ l ∈ processed, ∃ r ∈ acc, linkKey r = linkKey l ∧ l.confidence ≤ r.confidence)

/-- Two links with the same deduplication key and different confidences. -/
def linkA : Link :=
  { person := "Baldwin", personGroup := false, candidates := [], top := none,
    confidence := 1, linkStatus := "no_match" }

def linkB : Link :=
  { person := "Baldwin", personGroup := false, candidates := [], top := none,
    confidence := 2, linkStatus := "no_match" }

/-! ## Association-list (Python dict) lemmas -/

theorem dfind_dinsert_self {α : Type} (u : List (String × α)) (k : String) (v : α) :
    dfind (dinsert u k v) k = some v := by
  induction u with
  | nil => simp [dinsert, dfind]
  | cons kv rest ih =>
      obtain ⟨k2, w⟩ := kv
      by_cases h : k2 = k
      · simp [dinsert, dfind, h]
      · simp [dinsert, dfind, h, ih]

theorem dfind_dinsert_ne {α : Type} (u : List (String × α)) (k j : String) (v : α)
    (h : j ≠ k) : dfind (dinsert u k v) j = dfind u j := by
  induction u with
  | nil => simp [dinsert, dfind, Ne.symm h]
  | cons kv rest ih =>
      obtain ⟨k2, w⟩ := kv
      by_cases h2 : k2 = k
      · subst h2
        simp [dinsert, dfind, Ne.symm h]
      · simp [dinsert, dfind, h2, ih]

theorem length_le_dinsert {α : Type} (u : List (String × α)) (k : String) (v : α) :
    u.length ≤ (dinsert u k v).length := by
  induction u with
  | nil => simp [dinsert]
  | cons kv rest ih =>
      obtain ⟨k2, w⟩ := kv
      by_cases h : k2 = k
      · simp [dinsert, h]
      · simp only [dinsert, if_neg h, List.length_cons]
        omega

theorem isSome_dfind_dinsert {α : Type} (u : List (String × α)) (k j : String) (v : α)
    (h : (dfind u j).isSome) : (dfind (dinsert u k v) j).isSome := by
  by_cases hj : j = k
  · subst hj
    simp [dfind_dinsert_self]
  · rwa [dfind_dinsert_ne u k j v hj]

theorem length_dmodify {α : Type} (u : List (String × α)) (k : String) (f : α → α) :
    (dmodify u k f).length = u.length := by
  induction u with
  | nil => simp [dmodify]
  | cons kv rest ih =>
      obtain ⟨k2, w⟩ := kv
      by_cases h : k2 = k <;> simp [dmodify, h, ih]

theorem dfind_dmodify_self {α : Type} (u : List (String × α)) (k : String) (f : α → α) :
    dfind (dmodify u k f) k = (dfind u k).map f := by
  induction u with
  | nil => simp [dmodify, dfind]
  | cons kv rest ih =>
      obtain ⟨k2, w⟩ := kv
      by_cases h : k2 = k
      · simp [dmodify, dfind, h]
      · simp [dmodify, dfind, h, ih]

theorem dfind_dmodify_ne {α : Type} (u : List (String × α)) (k j : String) (f : α → α)
    (h : j ≠ k) : dfind (dmodify u k f) j = dfind u j := by
  induction u with
  | nil => simp [dmodify]
  | cons kv rest ih =>
      obtain ⟨k2, w⟩ := kv
      by_cases h2 : k2 = k
      · subst h2
        simp [dmodify, dfind, Ne.symm h]
      · simp [dmodify, dfind, h2, ih]

theorem foldl_preserve {α β : Type} (P : α → Prop) (f : α → β → α) (l : List β)
    (hf : ∀ u x, P u → P (f u x)) (u : α) (hu : P u) : P (l.foldl f u) := by
  induction l generalizing u with
  | nil => exact hu
  | cons x t ih => exact ih (f u x) (hf u x hu)

/-! ## Claim C3: which raw authority records are dropped -/

theorem build_authority_lookup_filter (es : List RawAuthRecord) :
    build_authority_lookup es = (es.filter keepRecord).map mkAuthEntry := by
  induction es with
  | nil => rfl
  | cons e t ih =>
      by_cases h : authIdOf e = "" ∨ labelOf e = ""
      · have hk : keepRecord e = false := by
          simp only [keepRecord, decide_eq_false_iff_not]
          tauto
        simp only [build_authority_lookup] at ih ⊢
        simp [List.filterMap_cons, List.filter_cons, h, hk, ih]
      · have hk : keepRecord e = true := by
          push_neg at h
          simp [keepRecord, h.1, h.2]
        simp only [build_authority_lookup] at ih ⊢
        simp [List.filterMap_cons, List.filter_cons, h, hk, ih, mkAuthEntry]

/-- C3.  Claim (corrected): the Authority Index Builder retains exactly the
raw records whose stripped id and stripped label are both nonempty; a
record lacking either one is dropped (line 139 of run_pipeline.py,
`if not auth_id or not label: continue`).  The original claim said only
records lacking both are dropped. -/
theorem C3_records_kept_iff_id_and_label (es : List RawAuthRecord) :
    build_authority_lookup es = (es.filter keepRecord).map mkAuthEntry ∧
    (∀ r ∈ build_authority_lookup es,
      ∃ e ∈ es, authIdOf e ≠ "" ∧ labelOf e ≠ "" ∧
        r.authorityId = authIdOf e ∧ r.preferredLabel = labelOf e) ∧
    (∀ e ∈ es, authIdOf e ≠ "" → labelOf e ≠ "" →
      ∃ r ∈ build_authority_lookup es,
        r.authorityId = authIdOf e ∧ r.preferredLabel = labelOf e) := by
  refine ⟨build_authority_lookup_filter es, ?_, ?_⟩
  · intro r hr
    rw [build_authority_lookup_filter es] at hr
    obtain ⟨e, he, rfl⟩ := List.mem_map.mp hr
    have hmem := List.mem_filter.mp he
    have hcond := hmem.2
    rw [keepRecord, decide_eq_true_iff] at hcond
    exact ⟨e, hmem.1, hcond.1, hcond.2, rfl, rfl⟩
  · intro e he hid hlab
    rw [build_authority_lookup_filter es]
    exact ⟨mkAuthEntry e,
      List.mem_map.mpr ⟨e, List.mem_filter.mpr ⟨he, by simp [keepRecord, hid, hlab]⟩, rfl⟩,
      rfl, rfl⟩

/-- C3 counterexample to the claim as stated: a record with an id but no
label is dropped, not retained. -/
theorem C3_counterexample_id_only_dropped :
    authIdOf { authorityId := some "AUTH:9" } = "AUTH:9" ∧
    labelOf { authorityId := some "AUTH:9" } = "" ∧
    build_authority_lookup [{ authorityId := some "AUTH:9" }] = [] := by
  refine ⟨by decide, by decide, ?_⟩
  have h : labelOf { authorityId := some "AUTH:9" : RawAuthRecord } = "" := by decide
  simp [build_authority_lookup, h]

/-! ## Claim C6: status thresholds and monotonicity -/

theorem status_iff (c : ℚ) :
    (status c = "high" ↔ (0.90 : ℚ) ≤ c) ∧
    (status c = "medium" ↔ (0.75 : ℚ) ≤ c ∧ c < 0.90) ∧
    (status c = "low" ↔ (0.60 : ℚ) ≤ c ∧ c < 0.75) ∧
    (status c = "no_match" ↔ c < 0.60) := by
  unfold status
  split_ifs with h1 h2 h3
  · exact ⟨iff_of_true rfl h1,
      iff_of_false (by decide) (fun h => absurd h1 (not_le.mpr h.2)),
      iff_of_false (by decide) (fun h => absurd h1 (not_le.mpr (by linarith [h.2]))),
      iff_of_false (by decide) (fun h => absurd h1 (not_le.mpr (by linarith)))⟩
  · exact ⟨iff_of_false (by decide) h1,
      iff_of_true rfl ⟨h2, not_le.mp h1⟩,
      iff_of_false (by decide) (fun h => absurd h2 (not_le.mpr (by linarith [h.2]))),
      iff_of_false (by decide) (fun h => absurd h2 (not_le.mpr (by linarith)))⟩
  · exact ⟨iff_of_false (by decide) h1,
      iff_of_false (by decide) (fun h => absurd h.1 h2),
      iff_of_true rfl ⟨h3, not_le.mp h2⟩,
      iff_of_false (by decide) (fun h => absurd h3 (not_le.mpr (by linarith)))⟩
  · exact ⟨iff_of_false (by decide) h1,
      iff_of_false (by decide) (fun h => absurd h.1 h2),
      iff_of_false (by decide) (fun h => absurd h.1 h3),
      iff_of_true rfl (not_le.mp h3)⟩

theorem tierRank_status_eq (c : ℚ) :
    tierRank (status c) =
      (if (0.90 : ℚ) ≤ c then 3 else if (0.75 : ℚ) ≤ c then 2
       else if (0.60 : ℚ) ≤ c then 1 else 0) := by
  unfold status
  split_ifs <;> simp [tierRank]

/-- C6.  Claim (confirmed): the status classifier maps confidence c to
high iff c ≥ 0.90, medium iff 0.75 ≤ c < 0.90, low iff 0.60 ≤ c < 0.75,
no_match iff c < 0.60, and a larger confidence never gets a worse tier. -/
theorem C6_status_thresholds_monotone (c : ℚ) :
    (status c = "high" ↔ (0.90 : ℚ) ≤ c) ∧
    (status c = "medium" ↔ (0.75 : ℚ) ≤ c ∧ c < 0.90) ∧
    (status c = "low" ↔ (0.60 : ℚ) ≤ c ∧ c < 0.75) ∧
    (status c = "no_match" ↔ c < 0.60) ∧
    (∀ c2 : ℚ, c2 < c → tierRank (status c2) ≤ tierRank (status c)) := by
  obtain ⟨h1, h2, h3, h4⟩ := status_iff c
  refine ⟨h1, h2, h3, h4, ?_⟩
  intro c2 hlt
  rw [tierRank_status_eq, tierRank_status_eq]
  split_ifs <;> first | omega | linarith

/-- C6 witness: a concrete instance of the monotonicity part. -/
theorem C6_witness_rank_monotone : tierRank (status 0) ≤ tierRank (status 1) :=
  (C6_status_thresholds_monotone 1).2.2.2.2 0 (by norm_num)

/-! ## Claim C9: the plausibility filter of the reconciliation client -/

/-- C9.  Claim (confirmed): a candidate is excluded exactly when both
lifespan years are known and both exceed 1500; unknown dates and any known
date at or before 1500 always include the candidate. -/
theorem C9_medieval_filter (b d : Option Nat) :
    (is_medieval_person b d = false ↔
      ∃ bb dd, b = some bb ∧ d = some dd ∧ 1500 < bb ∧ 1500 < dd) ∧
    (b = none ∨ d = none → is_medieval_person b d = true) ∧
    (∀ y, b = some y → y ≤ 1500 → is_medieval_person b d = true) ∧
    (∀ y, d = some y → y ≤ 1500 → is_medieval_person b d = true) ∧
    (∀ (rs : List (String × Option Nat × Option Nat)) r,
      r ∈ filterMedieval rs ↔ r ∈ rs ∧ is_medieval_person r.2.1 r.2.2 = true) := by
  refine ⟨?_, ?_, ?_, ?_, ?_⟩
  · rcases b with _ | bb <;> rcases d with _ | dd <;>
      simp only [is_medieval_person, truthy, MEDIEVAL_CUTOFF_YEAR] <;>
      split_ifs <;> simp_all <;> omega
  · rcases b with _ | bb <;> rcases d with _ | dd <;>
      simp only [is_medieval_person, truthy, MEDIEVAL_CUTOFF_YEAR] <;>
      split_ifs <;> simp_all
  · intro y hy hle
    subst hy
    rcases d with _ | dd <;>
      simp only [is_medieval_person, truthy, MEDIEVAL_CUTOFF_YEAR] <;>
      split_ifs <;> simp_all
  · intro y hy hle
    subst hy
    rcases b with _ | bb <;>
      simp only [is_medieval_person, truthy, MEDIEVAL_CUTOFF_YEAR] <;>
      split_ifs <;> simp_all
  · intro rs r
    simp [filterMedieval, List.mem_filter]

/-- C9 witness: unknown dates are included; the theorem applied at
(none, none). -/
theorem C9_witness_unknown_included : is_medieval_person none none = true :=
  (C9_medieval_filter none none).2.1 (Or.inl rfl)

/-! ## Claim C10: names shorter than 3 characters -/

theorem codesToStr_length (l : List Nat) : (codesToStr l).length = l.length :=
  List.length_map l Char.ofNat

theorem strToCodes_length (s : String) : (strToCodes s).length = s.length :=
  List.length_map s.data Char.toNat

theorem pyStrip_length_le (l : List Nat) : (pyStrip l).length ≤ l.length := by
  unfold pyStrip
  calc ((l.dropWhile pyIsSpace).reverse.dropWhile pyIsSpace).reverse.length
      = ((l.dropWhile pyIsSpace).reverse.dropWhile pyIsSpace).length := by
        simp
    _ ≤ (l.dropWhile pyIsSpace).reverse.length := (List.dropWhile_sublist _).length_le
    _ = (l.dropWhile pyIsSpace).length := by simp
    _ ≤ l.length := (List.dropWhile_sublist _).length_le

theorem stripStr_length_le (s : String) : (stripStr s).length ≤ s.length := by
  rw [stripStr, codesToStr_length]
  calc (pyStrip (strToCodes s)).length ≤ (strToCodes s).length := pyStrip_length_le _
    _ = s.length := strToCodes_length s

/-- C10.  Claim (confirmed): a nonempty mention name shorter than 3
characters is skipped by the merger before any normalization or matching,
and the reconciliation run never queries a person whose name is shorter
than 3 characters. -/
theorem C10_short_names_never_processed :
    (∀ (authIdx wdIdx : List (String × List String)) (u : List (String × Entity))
        (m : Mention), m.name ≠ "" → m.name.length < 3 →
        processMention authIdx wdIdx u m = u) ∧
    (∀ (l : Link) (cache : List String), l.person.length < 3 →
        queriesFor l cache = false) := by
  constructor
  · intro authIdx wdIdx u m _ h2
    unfold processMention
    exact if_pos (Or.inr h2)
  · intro l cache h
    have hp : decide ((stripStr l.person).length < 3) = true :=
      decide_eq_true (lt_of_le_of_lt (stripStr_length_le _) h)
    unfold queriesFor
    simp [hp]

/-- C10 witness: the two-character name "ab". -/
theorem C10_witness_ab :
    processMention [] [] [] { name := "ab" } = [] ∧
    queriesFor
      { person := "ab", personGroup := false, candidates := [], top := none,
        confidence := 0, linkStatus := "no_match" } [] = false :=
  ⟨C10_short_names_never_processed.1 [] [] [] { name := "ab" } (by decide) (by decide),
   C10_short_names_never_processed.2 _ [] (by decide)⟩

/-! ## Claim C4: the scorer's tiers -/

theorem min_length_lt_max_of_substr (p v : List Nat) (hne : p ≠ v)
    (hsub : (isSubstr p v || isSubstr v p) = true) :
    min p.length v.length < max p.length v.length := by
  have hor : isSubstr p v = true ∨ isSubstr v p = true := by simpa using hsub
  have hlen : p.length ≠ v.length := by
    intro hl
    rcases hor with h | h
    · exact hne ((of_decide_eq_true h).sublist.eq_of_length hl)
    · exact hne ((of_decide_eq_true h).sublist.eq_of_length hl.symm).symm
  omega

theorem scorePair_eq_exact (p v : List Nat) (h : p = v) :
    scorePair p v = (1, "exact") := by
  simp [scorePair, h]

theorem scorePair_eq_alias (p v : List Nat) (hne : p ≠ v)
    (hsub : (isSubstr p v || isSubstr v p) = true)
    (hmin : 0 < min p.length v.length) :
    scorePair p v =
      (((min p.length v.length : Nat) : ℚ) / ((max p.length v.length : Nat) : ℚ),
        "alias") := by
  have hs : 0 < max p.length v.length := lt_of_lt_of_le hmin min_le_max
  have hq : 0 < ((min p.length v.length : Nat) : ℚ) /
      ((max p.length v.length : Nat) : ℚ) := by
    apply div_pos
    · exact_mod_cast hmin
    · exact_mod_cast hs
  simp only [scorePair, if_neg hne, if_pos hsub, if_pos hs, if_pos hq]

theorem scorePair_substr_min_zero (p v : List Nat) (hne : p ≠ v)
    (hsub : (isSubstr p v || isSubstr v p) = true)
    (hmin : min p.length v.length = 0) : scorePair p v = (0, "fuzzy") := by
  simp only [scorePair, if_neg hne, if_pos hsub]
  have hcast : ((min p.length v.length : Nat) : ℚ) = 0 := by exact_mod_cast hmin
  by_cases hs : 0 < max p.length v.length
  · rw [if_pos hs, hcast, zero_div]
    simp
  · rw [if_neg hs]
    simp

theorem scorePair_eq_fuzzy (p v : List Nat) (hne : p ≠ v)
    (hnsub : ¬(isSubstr p v || isSubstr v p) = true) :
    scorePair p v = (fuzzyFallback p v, "fuzzy") := by
  simp only [scorePair, if_neg hne, if_neg hnsub]

/-- C4.  Claim (corrected): equal normalized strings score (1.0, exact);
unequal strings with containment and a nonempty shorter side score
(min/max, alias); every alias score is strictly below the exact score 1.0.
The further conjunct "an alias score is at least the pure fuzzy score for
the same pair" is refuted by the counterexample theorem below. -/
theorem C4_scorer_tiers_amended (p v : List Nat) :
    (p = v → scorePair p v = (1, "exact")) ∧
    (p ≠ v → (isSubstr p v || isSubstr v p) = true → 0 < min p.length v.length →
      scorePair p v =
        (((min p.length v.length : Nat) : ℚ) / ((max p.length v.length : Nat) : ℚ),
          "alias")) ∧
    ((scorePair p v).2 = "exact" → (scorePair p v).1 = 1) ∧
    ((scorePair p v).2 = "alias" → (scorePair p v).1 < 1) := by
  refine ⟨scorePair_eq_exact p v, scorePair_eq_alias p v, ?_, ?_⟩
  · intro h
    by_cases h1 : p = v
    · rw [scorePair_eq_exact p v h1]
    · by_cases h2 : (isSubstr p v || isSubstr v p) = true
      · rcases Nat.eq_zero_or_pos (min p.length v.length) with hm | hm
        · rw [scorePair_substr_min_zero p v h1 h2 hm] at h
          simp at h
        · rw [scorePair_eq_alias p v h1 h2 hm] at h
          simp at h
      · rw [scorePair_eq_fuzzy p v h1 h2] at h
        simp at h
  · intro h
    by_cases h1 : p = v
    · rw [scorePair_eq_exact p v h1] at h
      simp at h
    · by_cases h2 : (isSubstr p v || isSubstr v p) = true
      · rcases Nat.eq_zero_or_pos (min p.length v.length) with hm | hm
        · rw [scorePair_substr_min_zero p v h1 h2 hm] at h
          simp at h
        · rw [scorePair_eq_alias p v h1 h2 hm]
          have hlt := min_length_lt_max_of_substr p v h1 h2
          have hspos : (0 : ℚ) < ((max p.length v.length : Nat) : ℚ) := by
            exact_mod_cast lt_of_le_of_lt (Nat.zero_le _) hlt
          show ((min p.length v.length : Nat) : ℚ) /
              ((max p.length v.length : Nat) : ℚ) < 1
          rw [div_lt_one hspos]
          exact_mod_cast hlt
      · rw [scorePair_eq_fuzzy p v h1 h2] at h
        simp at h

/-- C4 counterexample to the claim as stated: for the contained pair
"a" and "a b", the alias score 1/3 is strictly below the pure fallback
fuzzy score 1/2 for the same pair. -/
theorem C4_counterexample_alias_below_fuzzy :
    (isSubstr [97] [97, 32, 98] || isSubstr [97, 32, 98] [97]) = true ∧
    (scorePair [97] [97, 32, 98]).2 = "alias" ∧
    (scorePair [97] [97, 32, 98]).1 < fuzzyFallback [97] [97, 32, 98] := by
  have hsub : (isSubstr [97] [97, 32, 98] || isSubstr [97, 32, 98] [97]) = true := by
    decide
  have hfz : fuzzyFallback [97] [97, 32, 98] = 1 / 2 := by
    have hA : tokenSet [97] = [[97]] := by decide
    have hB : tokenSet [97, 32, 98] = [[97], [98]] := by decide
    simp [fuzzyFallback, hA, hB]
  have hne : ([97] : List Nat) ≠ [97, 32, 98] := by decide
  have hsp : scorePair [97] [97, 32, 98] = (1 / 3, "alias") := by
    simp only [scorePair, if_neg hne, if_pos hsub]
    norm_num
  refine ⟨hsub, by rw [hsp], ?_⟩
  rw [hsp, hfz]
  norm_num

/-- C4 witness: the contained pair "ab" and "abc" gets tier alias with a
score strictly below the exact score. -/
theorem C4_witness_ab_abc :
    (scorePair [97, 98] [97, 98, 99]).2 = "alias" ∧
    (scorePair [97, 98] [97, 98, 99]).1 < 1 := by
  have h := C4_scorer_tiers_amended [97, 98] [97, 98, 99]
  have heq := h.2.1 (by decide) (by decide) (by decide)
  exact ⟨by rw [heq], h.2.2.2 (by rw [heq])⟩

/-! ## Claim C8: idempotence of the name normalizer

The output of `normaliseL` consists of lowercase word characters and
single separating spaces (the predicate NF); every pipeline stage is the
identity on such strings, so a second pass changes nothing.
-/

theorem nfkd_fixed_of_ok (c : Nat) (h : okChar c = true) : pyNFKD c = [c] := by
  simp only [okChar, pyIsWord, Bool.and_eq_true, Bool.not_eq_true', Bool.or_eq_true,
    Bool.and_eq_false_iff, decide_eq_true_eq, decide_eq_false_iff_not] at h
  unfold pyNFKD
  split_ifs with h1 h2 h3 <;> first | rfl | omega

theorem combining_false_of_ok (c : Nat) (h : okChar c = true) : pyCombining c = false := by
  simp only [okChar, pyIsWord, Bool.and_eq_true, Bool.not_eq_true', Bool.or_eq_true,
    Bool.and_eq_false_iff, decide_eq_true_eq, decide_eq_false_iff_not] at h
  simp only [pyCombining, Bool.and_eq_false_iff, decide_eq_false_iff_not]
  omega

theorem word_of_ok (c : Nat) (h : okChar c = true) : pyIsWord c = true :=
  (Bool.and_eq_true .. |>.mp h).1

theorem space_false_of_ok (c : Nat) (h : okChar c = true) : pyIsSpace c = false := by
  simp only [okChar, pyIsWord, Bool.and_eq_true, Bool.not_eq_true', Bool.or_eq_true,
    Bool.and_eq_false_iff, decide_eq_true_eq, decide_eq_false_iff_not] at h
  simp only [pyIsSpace, Bool.or_eq_false_iff, decide_eq_false_iff_not]
  omega

theorem lower_fixed_of_ok (c : Nat) (h : okChar c = true) : pyLower c = c := by
  simp only [okChar, pyIsWord, Bool.and_eq_true, Bool.not_eq_true', Bool.or_eq_true,
    Bool.and_eq_false_iff, decide_eq_true_eq, decide_eq_false_iff_not] at h
  unfold pyLower
  rw [if_neg]
  simp only [Bool.and_eq_true, decide_eq_true_eq]
  omega

theorem ok_lower_of_word (c : Nat) (h : pyIsWord c = true) : okChar (pyLower c) = true := by
  simp only [pyIsWord, Bool.or_eq_true, Bool.and_eq_true, decide_eq_true_eq] at h
  unfold okChar pyLower pyIsWord
  split_ifs with hc <;>
    simp only [Bool.and_eq_true, decide_eq_true_eq] at hc ⊢ <;>
    simp only [Bool.and_eq_true, Bool.not_eq_true', Bool.or_eq_true,
      Bool.and_eq_false_iff, decide_eq_true_eq, decide_eq_false_iff_not] <;>
    omega

theorem lower_eq_32_iff (c : Nat) : pyLower c = 32 ↔ c = 32 := by
  unfold pyLower
  split_ifs with hc
  · simp only [Bool.and_eq_true, decide_eq_true_eq] at hc
    omega
  · exact Iff.rfl

theorem ok_le_of_ok (c : Nat) (h : okChar c = true) : c ≤ 122 := by
  simp only [okChar, pyIsWord, Bool.and_eq_true, Bool.not_eq_true', Bool.or_eq_true,
    Bool.and_eq_false_iff, decide_eq_true_eq, decide_eq_false_iff_not] at h
  omega

theorem map_id_of_mem (f : Nat → Nat) (s : List Nat) (h : ∀ c ∈ s, f c = c) :
    s.map f = s := by
  induction s with
  | nil => rfl
  | cons a t ih =>
      rw [List.map_cons, h a (List.mem_cons_self a t),
        ih (fun c hc => h c (List.mem_cons_of_mem a hc))]

theorem flatMap_id_of_mem (f : Nat → List Nat) (s : List Nat)
    (h : ∀ c ∈ s, f c = [c]) : s.flatMap f = s := by
  induction s with
  | nil => rfl
  | cons a t ih =>
      rw [List.flatMap_cons, h a (List.mem_cons_self a t),
        ih (fun c hc => h c (List.mem_cons_of_mem a hc))]
      rfl

theorem squeezeRep_subset (r : Nat) : ∀ (s : List Nat) (c : Nat),
    c ∈ squeezeRep r s → c ∈ s
  | [], c => by simp [squeezeRep]
  | [a], c => by simp [squeezeRep]
  | a :: b :: rest, c => by
      intro hc
      unfold squeezeRep at hc
      split_ifs at hc with h
      · exact List.mem_cons_of_mem a (squeezeRep_subset r (b :: rest) c hc)
      · rcases List.mem_cons.mp hc with h2 | h2
        · exact h2 ▸ List.mem_cons_self a (b :: rest)
        · exact List.mem_cons_of_mem a (squeezeRep_subset r (b :: rest) c h2)

theorem squeezeRep_cons_head (r : Nat) : ∀ (b : Nat) (rest : List Nat),
    ∃ t, squeezeRep r (b :: rest) = b :: t
  | b, [] => ⟨[], rfl⟩
  | b, c :: rest2 => by
      unfold squeezeRep
      split_ifs with h
      · obtain ⟨t, ht⟩ := squeezeRep_cons_head r c rest2
        have hb : b = r ∧ c = r := by simpa using h
        exact ⟨t, by rw [ht, hb.1, hb.2]⟩
      · exact ⟨squeezeRep r (c :: rest2), rfl⟩

theorem chain'_squeezeRep (r : Nat) : ∀ s : List Nat,
    List.Chain' (fun a b => ¬(a = r ∧ b = r)) (squeezeRep r s)
  | [] => by simp [squeezeRep]
  | [a] => by simp [squeezeRep]
  | a :: b :: rest => by
      unfold squeezeRep
      split_ifs with h
      · exact chain'_squeezeRep r (b :: rest)
      · obtain ⟨t, ht⟩ := squeezeRep_cons_head r b rest
        rw [ht, List.chain'_cons]
        refine ⟨fun hab => h (by simp [hab.1, hab.2]), ?_⟩
        rw [← ht]
        exact chain'_squeezeRep r (b :: rest)

theorem squeezeRep_eq_self (r : Nat) : ∀ s : List Nat,
    List.Chain' (fun a b => ¬(a = r ∧ b = r)) s → squeezeRep r s = s
  | [], _ => rfl
  | [a], _ => rfl
  | a :: b :: rest, h => by
      rw [List.chain'_cons] at h
      unfold squeezeRep
      rw [if_neg, squeezeRep_eq_self r (b :: rest) h.2]
      simp only [Bool.and_eq_true, decide_eq_true_eq]
      exact h.1

theorem mem_punctToSpace (s : List Nat) :
    ∀ c ∈ punctToSpace s, pyIsWord c = true ∨ pyIsSpace c = true := by
  intro c hc
  obtain ⟨a, _, rfl⟩ := List.mem_map.mp hc
  by_cases h : (pyIsWord a || pyIsSpace a) = true
  · rw [if_pos h]
    exact Bool.or_eq_true .. |>.mp h
  · rw [if_neg h]
    exact Or.inr rfl

theorem mem_collapse_map (s : List Nat)
    (hs : ∀ c ∈ s, pyIsWord c = true ∨ pyIsSpace c = true) :
    ∀ c ∈ s.map (fun c => if pyIsSpace c then 32 else c),
      (pyIsWord c = true ∧ pyIsSpace c = false) ∨ c = 32 := by
  intro c hc
  obtain ⟨a, ha, rfl⟩ := List.mem_map.mp hc
  by_cases h : pyIsSpace a = true
  · rw [if_pos h]
    exact Or.inr rfl
  · rw [if_neg (by simp [h])]
    have hw : pyIsWord a = true := by
      rcases hs a ha with h2 | h2
      · exact h2
      · exact absurd h2 h
    exact Or.inl ⟨hw, Bool.not_eq_true _ |>.mp h⟩

theorem mem_collapseWS (s : List Nat)
    (hs : ∀ c ∈ s, pyIsWord c = true ∨ pyIsSpace c = true) :
    ∀ c ∈ collapseWS s, (pyIsWord c = true ∧ pyIsSpace c = false) ∨ c = 32 :=
  fun c hc =>
    mem_collapse_map s hs c
      (squeezeRep_subset 32 (s.map (fun c => if pyIsSpace c then 32 else c)) c hc)

theorem chain'_collapseWS (s : List Nat) :
    List.Chain' (fun a b => ¬(a = 32 ∧ b = 32)) (collapseWS s) :=
  chain'_squeezeRep 32 _

theorem mem_lowerAll (s : List Nat)
    (hs : ∀ c ∈ s, (pyIsWord c = true ∧ pyIsSpace c = false) ∨ c = 32) :
    ∀ c ∈ lowerAll s, okChar c = true ∨ c = 32 := by
  intro c hc
  obtain ⟨a, ha, rfl⟩ := List.mem_map.mp hc
  rcases hs a ha with ⟨hw, _⟩ | h32
  · exact Or.inl (ok_lower_of_word a hw)
  · rw [h32]
    exact Or.inr rfl

theorem chain'_lowerAll (s : List Nat)
    (h : List.Chain' (fun a b => ¬(a = 32 ∧ b = 32)) s) :
    List.Chain' (fun a b => ¬(a = 32 ∧ b = 32)) (lowerAll s) := by
  unfold lowerAll
  rw [List.chain'_map]
  refine h.imp ?_
  intro a b hab hab2
  exact hab ⟨(lower_eq_32_iff a).mp hab2.1, (lower_eq_32_iff b).mp hab2.2⟩

theorem chain'_dropWhile {R : Nat → Nat → Prop} (p : Nat → Bool) (s : List Nat)
    (h : List.Chain' R s) : List.Chain' R (s.dropWhile p) := by
  induction s with
  | nil => simp
  | cons a t ih =>
      rw [List.dropWhile_cons]
      split_ifs
      · exact ih h.tail
      · exact h

theorem chain'_reverse_R32 (s : List Nat)
    (h : List.Chain' (fun a b => ¬(a = 32 ∧ b = 32)) s) :
    List.Chain' (fun a b => ¬(a = 32 ∧ b = 32)) s.reverse := by
  rw [List.chain'_reverse]
  exact h.imp (fun _ _ hab hab2 => hab ⟨hab2.2, hab2.1⟩)

theorem chain'_pyStrip (s : List Nat)
    (h : List.Chain' (fun a b => ¬(a = 32 ∧ b = 32)) s) :
    List.Chain' (fun a b => ¬(a = 32 ∧ b = 32)) (pyStrip s) := by
  unfold pyStrip
  exact chain'_reverse_R32 _
    (chain'_dropWhile pyIsSpace _ (chain'_reverse_R32 _ (chain'_dropWhile pyIsSpace s h)))

theorem mem_pyStrip (s : List Nat) (c : Nat) (hc : c ∈ pyStrip s) : c ∈ s := by
  unfold pyStrip at hc
  rw [List.mem_reverse] at hc
  have h1 := (List.dropWhile_sublist pyIsSpace).subset hc
  rw [List.mem_reverse] at h1
  exact (List.dropWhile_sublist pyIsSpace).subset h1

theorem head_dropWhile_not (p : Nat → Bool) (s : List Nat) :
    ∀ h0, (s.dropWhile p).head? = some h0 → p h0 = false := by
  induction s with
  | nil => simp
  | cons a t ih =>
      intro h0 hh
      rw [List.dropWhile_cons] at hh
      split_ifs at hh with hp
      · exact ih h0 hh
      · rw [List.head?_cons, Option.some.injEq] at hh
        rw [← hh]
        exact Bool.not_eq_true _ |>.mp hp

theorem getLast_suffix_eq (l m : List Nat) (h : List.IsSuffix l m) (hne : l ≠ []) :
    m.getLast? = l.getLast? := by
  obtain ⟨pre, rfl⟩ := h
  rw [List.getLast?_append]
  cases hl : l.getLast? with
  | none => exact absurd (List.getLast?_eq_none_iff.mp hl) hne
  | some a => simp

theorem pyStrip_head_not_space (s : List Nat) :
    ∀ h0, (pyStrip s).head? = some h0 → pyIsSpace h0 = false := by
  intro h0 hh
  unfold pyStrip at hh
  rw [List.head?_reverse] at hh
  have hne : (s.dropWhile pyIsSpace).reverse.dropWhile pyIsSpace ≠ [] := by
    intro hemp
    rw [hemp] at hh
    simp at hh
  have hsuf := List.dropWhile_suffix (l := (s.dropWhile pyIsSpace).reverse) (p := pyIsSpace)
  rw [← getLast_suffix_eq _ _ hsuf hne, List.getLast?_reverse] at hh
  exact head_dropWhile_not pyIsSpace s h0 hh

theorem pyStrip_last_not_space (s : List Nat) :
    ∀ h0, (pyStrip s).getLast? = some h0 → pyIsSpace h0 = false := by
  intro h0 hh
  unfold pyStrip at hh
  rw [List.getLast?_reverse] at hh
  exact head_dropWhile_not pyIsSpace _ h0 hh

/-- The normalizer's output is in normal form. -/
theorem NF_normaliseL (s : List Nat) : NF (normaliseL s) := by
  have ht2 := mem_punctToSpace (stripAccents s)
  have ht3 := mem_collapseWS _ ht2
  have hc3 := chain'_collapseWS (punctToSpace (stripAccents s))
  have ht4 := mem_lowerAll _ ht3
  have hc4 := chain'_lowerAll _ hc3
  refine ⟨?_, ?_, ?_, ?_⟩
  · intro c hc
    exact ht4 c (mem_pyStrip _ c hc)
  · exact chain'_pyStrip _ hc4
  · intro h0 hh
    have hsp := pyStrip_head_not_space _ h0 hh
    intro h32
    rw [h32] at hsp
    simp [pyIsSpace] at hsp
  · intro h0 hh
    have hsp := pyStrip_last_not_space _ h0 hh
    intro h32
    rw [h32] at hsp
    simp [pyIsSpace] at hsp

theorem stripAccents_eq_self (s : List Nat)
    (h : ∀ c ∈ s, okChar c = true ∨ c = 32) : stripAccents s = s := by
  unfold stripAccents
  rw [flatMap_id_of_mem pyNFKD s ?hfix]
  case hfix =>
    intro c hc
    rcases h c hc with h2 | h2
    · exact nfkd_fixed_of_ok c h2
    · rw [h2]
      rfl
  apply List.filter_eq_self.mpr
  intro c hc
  rcases h c hc with h2 | h2
  · simp [combining_false_of_ok c h2]
  · rw [h2]
    rfl

theorem punctToSpace_eq_self (s : List Nat)
    (h : ∀ c ∈ s, okChar c = true ∨ c = 32) : punctToSpace s = s := by
  unfold punctToSpace
  apply map_id_of_mem
  intro c hc
  rcases h c hc with h2 | h2
  · rw [if_pos (by simp [word_of_ok c h2])]
  · rw [h2]
    rfl

theorem collapseWS_eq_self (s : List Nat)
    (h : ∀ c ∈ s, okChar c = true ∨ c = 32)
    (hch : List.Chain' (fun a b => ¬(a = 32 ∧ b = 32)) s) : collapseWS s = s := by
  unfold collapseWS mapSqueeze
  rw [map_id_of_mem _ s ?hid]
  case hid =>
    intro c hc
    rcases h c hc with h2 | h2
    · rw [if_neg (by simp [space_false_of_ok c h2])]
    · rw [h2]
      rfl
  exact squeezeRep_eq_self 32 s hch

theorem lowerAll_eq_self (s : List Nat)
    (h : ∀ c ∈ s, okChar c = true ∨ c = 32) : lowerAll s = s := by
  unfold lowerAll
  apply map_id_of_mem
  intro c hc
  rcases h c hc with h2 | h2
  · exact lower_fixed_of_ok c h2
  · rw [h2]
    rfl

theorem dropWhile_eq_self_of_head (p : Nat → Bool) (s : List Nat)
    (h : ∀ h0, s.head? = some h0 → p h0 = false) : s.dropWhile p = s := by
  cases s with
  | nil => rfl
  | cons a t =>
      rw [List.dropWhile_cons, if_neg]
      simp [h a rfl]

theorem mem_of_getLast?_eq (s : List Nat) (h0 : Nat) (hh : s.getLast? = some h0) :
    h0 ∈ s := by
  obtain ⟨hne, heq⟩ :=
    List.mem_getLast?_eq_getLast (l := s) (x := h0) (Option.mem_def.mpr hh)
  rw [heq]
  exact List.getLast_mem hne

theorem pyStrip_eq_self (s : List Nat)
    (h : ∀ c ∈ s, okChar c = true ∨ c = 32)
    (hhead : ∀ h0, s.head? = some h0 → h0 ≠ 32)
    (hlast : ∀ h0, s.getLast? = some h0 → h0 ≠ 32) : pyStrip s = s := by
  have hspace : ∀ c ∈ s, c ≠ 32 → pyIsSpace c = false := by
    intro c hc hne
    rcases h c hc with h2 | h2
    · exact space_false_of_ok c h2
    · exact absurd h2 hne
  unfold pyStrip
  rw [dropWhile_eq_self_of_head pyIsSpace s ?h1]
  case h1 =>
    intro h0 hh
    exact hspace h0 (List.mem_of_mem_head? hh) (hhead h0 hh)
  rw [dropWhile_eq_self_of_head pyIsSpace s.reverse ?h2, List.reverse_reverse]
  case h2 =>
    intro h0 hh
    rw [List.head?_reverse] at hh
    exact hspace h0 (mem_of_getLast?_eq s h0 hh) (hlast h0 hh)

/-- The normalizer is the identity on normal forms. -/
theorem normaliseL_eq_self_of_NF (s : List Nat) (h : NF s) : normaliseL s = s := by
  obtain ⟨hmem, hch, hhead, hlast⟩ := h
  unfold normaliseL
  rw [stripAccents_eq_self s hmem, punctToSpace_eq_self s hmem,
    collapseWS_eq_self s hmem hch, lowerAll_eq_self s hmem,
    pyStrip_eq_self s hmem hhead hlast]

theorem normaliseL_idem (s : List Nat) : normaliseL (normaliseL s) = normaliseL s :=
  normaliseL_eq_self_of_NF _ (NF_normaliseL s)

theorem charOfNat_toNat (c : Nat) (h : c < 55296) : (Char.ofNat c).toNat = c := by
  unfold Char.ofNat
  split
  · rfl
  · omega

theorem normaliseL_chars_small (s : List Nat) : ∀ c ∈ normaliseL s, c < 55296 := by
  intro c hc
  rcases (NF_normaliseL s).1 c hc with h2 | h2
  · have := ok_le_of_ok c h2
    omega
  · omega

theorem strToCodes_codesToStr (l : List Nat) (h : ∀ c ∈ l, c < 55296) :
    strToCodes (codesToStr l) = l := by
  unfold strToCodes codesToStr
  show (l.map Char.ofNat).map Char.toNat = l
  rw [List.map_map]
  apply map_id_of_mem
  intro c hc
  exact charOfNat_toNat c (h c hc)

/-- C8.  Claim (confirmed): the name normalizer is idempotent; a second
pass over its own output changes nothing. -/
theorem C8_normalise_idempotent (s : String) :
    normaliseStr (normaliseStr s) = normaliseStr s := by
  unfold normaliseStr
  rw [strToCodes_codesToStr _ (normaliseL_chars_small (strToCodes s)), normaliseL_idem]

theorem mem_dedupStep (acc : List Link) (l x : Link) (h : x ∈ dedupStep acc l) :
    x ∈ acc ∨ x = l := by
  induction acc with
  | nil =>
      simp [dedupStep] at h
      exact Or.inr h
  | cons a rest ih =>
      unfold dedupStep at h
      split_ifs at h with hk hc
      · rcases List.mem_cons.mp h with h | h
        · exact Or.inr h
        · exact Or.inl (List.mem_cons_of_mem a h)
      · exact Or.inl h
      · rcases List.mem_cons.mp h with h | h
        · exact Or.inl (h ▸ List.mem_cons_self a rest)
        · rcases ih h with h2 | h2
          · exact Or.inl (List.mem_cons_of_mem a h2)
          · exact Or.inr h2

theorem pairwise_dedupStep (acc : List Link) (l : Link)
    (h : acc.Pairwise (fun a b => linkKey a ≠ linkKey b)) :
    (dedupStep acc l).Pairwise (fun a b => linkKey a ≠ linkKey b) := by
  induction acc with
  | nil => simp [dedupStep]
  | cons a rest ih =>
      rw [List.pairwise_cons] at h
      obtain ⟨ha, hrest⟩ := h
      unfold dedupStep
      split_ifs with hk hc
      · rw [List.pairwise_cons]
        exact ⟨fun y hy => hk ▸ ha y hy, hrest⟩
      · rw [List.pairwise_cons]
        exact ⟨ha, hrest⟩
      · rw [List.pairwise_cons]
        refine ⟨?_, ih hrest⟩
        intro y hy
        rcases mem_dedupStep rest l y hy with h2 | h2
        · exact ha y h2
        · exact h2 ▸ hk

theorem dedupStep_covers_new (acc : List Link) (l : Link) :
    ∃ r ∈ dedupStep acc l, linkKey r = linkKey l ∧ l.confidence ≤ r.confidence := by
  induction acc with
  | nil => exact ⟨l, by simp [dedupStep], rfl, le_refl _⟩
  | cons a rest ih =>
      unfold dedupStep
      split_ifs with hk hc
      · exact ⟨l, List.mem_cons_self l rest, rfl, le_refl _⟩
      · exact ⟨a, List.mem_cons_self a rest, hk, not_lt.mp hc⟩
      · obtain ⟨r, hr, hkey, hconf⟩ := ih
        exact ⟨r, List.mem_cons_of_mem a hr, hkey, hconf⟩

theorem dedupStep_covers_old (acc : List Link) (l r : Link) (hr : r ∈ acc) :
    ∃ r2 ∈ dedupStep acc l, linkKey r2 = linkKey r ∧ r.confidence ≤ r2.confidence := by
  induction acc with
  | nil => cases hr
  | cons a rest ih =>
      unfold dedupStep
      rcases List.mem_cons.mp hr with hra | hra
      · subst hra
        split_ifs with hk hc
        · exact ⟨l, List.mem_cons_self l rest, hk.symm, le_of_lt hc⟩
        · exact ⟨r, List.mem_cons_self r rest, rfl, le_refl _⟩
        · exact ⟨r, List.mem_cons_self r _, rfl, le_refl _⟩
      · split_ifs with hk hc
        · exact ⟨r, List.mem_cons_of_mem l hra, rfl, le_refl _⟩
        · exact ⟨r, List.mem_cons_of_mem a hra, rfl, le_refl _⟩
        · obtain ⟨r2, hr2, hkey, hconf⟩ := ih hra
          exact ⟨r2, List.mem_cons_of_mem a hr2, hkey, hconf⟩

theorem uniq_of_pairwise_keys (acc : List Link)
    (h : acc.Pairwise (fun a b => linkKey a ≠ linkKey b)) (r r2 : Link)
    (h1 : r ∈ acc) (h2 : r2 ∈ acc) (hk : linkKey r = linkKey r2) : r = r2 := by
  induction acc with
  | nil => cases h1
  | cons a rest ih =>
      rw [List.pairwise_cons] at h
      obtain ⟨ha, hrest⟩ := h
      rcases List.mem_cons.mp h1 with g1 | g1 <;> rcases List.mem_cons.mp h2 with g2 | g2
      · rw [g1, g2]
      · exact absurd (g1 ▸ hk) (ha r2 g2)
      · exact absurd (g2 ▸ hk : linkKey r = linkKey a).symm (ha r g1)
      · exact ih hrest g1 g2

theorem dedupInv_step (processed acc : List Link) (l : Link)
    (h : dedupInv processed acc) : dedupInv (processed ++ [l]) (dedupStep acc l) := by
  obtain ⟨h1, h2, h3⟩ := h
  refine ⟨pairwise_dedupStep acc l h1, ?_, ?_⟩
  · intro x hx
    rcases mem_dedupStep acc l x hx with hx2 | hx2
    · exact List.mem_append_left _ (h2 x hx2)
    · exact List.mem_append_right _ (by simp [hx2])
  · intro l0 hl0
    rcases List.mem_append.mp hl0 with hl2 | hl2
    · obtain ⟨r, hr, hkey, hconf⟩ := h3 l0 hl2
      obtain ⟨r2, hr2, hkey2, hconf2⟩ := dedupStep_covers_old acc l r hr
      exact ⟨r2, hr2, hkey2.trans hkey, le_trans hconf hconf2⟩
    · have : l0 = l := by simpa using hl2
      subst this
      exact dedupStep_covers_new acc l0

theorem dedupInv_foldl (rest processed acc : List Link) (h : dedupInv processed acc) :
    dedupInv (processed ++ rest) (rest.foldl dedupStep acc) := by
  induction rest generalizing processed acc with
  | nil => simpa using h
  | cons l t ih =>
      have h3 := ih (processed ++ [l]) (dedupStep acc l) (dedupInv_step processed acc l h)
      simpa using h3

/-- C5.  Claim (confirmed): after deduplication the link list has at most
one link per (mention name, best-candidate id) key — absent candidates
keyed by the "__none__" pseudo-id — and each retained link comes from the
input and has the maximal confidence of its key group. -/
theorem C5_dedup_unique_max (links : List Link) :
    (dedupLinks links).Pairwise (fun a b => linkKey a ≠ linkKey b) ∧
    (∀ r ∈ dedupLinks links, r ∈ links) ∧
    (∀ l ∈ links, ∃ r ∈ dedupLinks links, r ∈ links ∧ linkKey r = linkKey l ∧
      ∀ l2 ∈ links, linkKey l2 = linkKey l → l2.confidence ≤ r.confidence) := by
  have h := dedupInv_foldl links [] [] ⟨List.Pairwise.nil, by simp, by simp⟩
  rw [List.nil_append] at h
  obtain ⟨h1, h2, h3⟩ := h
  refine ⟨h1, h2, ?_⟩
  intro l hl
  obtain ⟨r, hr, hkey, hconf⟩ := h3 l hl
  refine ⟨r, hr, h2 r hr, hkey, ?_⟩
  intro l2 hl2 hkey2
  obtain ⟨r2, hr2, hkey2b, hconf2⟩ := h3 l2 hl2
  have heq : r2 = r :=
    uniq_of_pairwise_keys _ h1 r2 r hr2 hr (hkey2b.trans (hkey2.trans hkey.symm))
  exact heq ▸ hconf2

/-- C5 witness: of two identically keyed links with confidences 1 and 2,
the retained one dominates both. -/
theorem C5_witness_two_links : linkA.confidence ≤ linkB.confidence := by
  obtain ⟨h1, h2, h3⟩ := C5_dedup_unique_max [linkA, linkB]
  obtain ⟨r, hr, hrin, hkey, hdom⟩ := h3 linkA (by simp)
  have hd : dedupLinks [linkA, linkB] = [linkB] := by decide
  rw [hd] at hr
  have hrB : r = linkB := by simpa using hr
  have := hdom linkA (by simp) rfl
  rw [hrB] at this
  exact this

/-! ## Claim C1: every external-export record is added to the graph

Line 282 of build_unified_kg.py reads

    if "wikidata_qid" not in [p.get("identifiers", {}).get("wikidata_qid")
                              for p in unified.values()]:

It tests the literal string "wikidata_qid" for membership in the list of
wikidata_qid identifier values, not the current record's qid, so the guard
is true for every realistic graph and every record is added — matched or
not — although the comment above the loop says "Add unmatched Wikidata
persons to unified KG" and the spec scenario says the entity count is
unchanged by a uniquely matched record.
-/

/-- C1.  Code bug, evaluated at the spec's own Baldwin scenario: the
reverse index maps "baldwin" to exactly one authority id, the QID is
merged into AUTH:1, and yet WIKIDATA:Q999 is still added as a new entity,
growing the graph from 1 to 2 entities. -/
theorem C1_matched_export_still_added :
    dfind (buildAuthIndex [("AUTH:1", baldwinE)]) "baldwin" = some ["AUTH:1"] ∧
    (dfind (match_persons [("AUTH:1", baldwinE)] [("Q999", q999E)] []) "AUTH:1").map
      (fun e => dfind e.identifiers "wikidata_qid") = some (some "Q999") ∧
    (dfind (match_persons [("AUTH:1", baldwinE)] [("Q999", q999E)] [])
        "WIKIDATA:Q999").isSome = true ∧
    (match_persons [("AUTH:1", baldwinE)] [("Q999", q999E)] []).length = 2 :=
  ⟨by decide, by decide, by decide, by decide⟩

/-! ## Claim C2: unique-match merge, ambiguous-match skip -/

/-- C2.  Claim (confirmed): one iteration of the matching loop merges the
record's QID into the matched entity and appends exactly one provenance
entry when the reverse index maps the normalized label to exactly one
authority id, and modifies nothing when the lookup is ambiguous or absent. -/
theorem C2_unique_match_merges_ambiguous_skips
    (authIdx : List (String × List String)) (u : List (String × Entity))
    (qid : String) (wd : Entity) :
    (∀ ids, dfind authIdx (normaliseStr wd.preferredLabel) = some ids →
      ids.length ≠ 1 → applyWdMatch authIdx u qid wd = u) ∧
    (dfind authIdx (normaliseStr wd.preferredLabel) = none →
      applyWdMatch authIdx u qid wd = u) ∧
    (∀ a e, dfind authIdx (normaliseStr wd.preferredLabel) = some [a] →
      dfind u a = some e →
      (∃ e2, dfind (applyWdMatch authIdx u qid wd) a = some e2 ∧
        dfind e2.identifiers "wikidata_qid" = some qid ∧
        e2.provenance = e.provenance ++ [wdExactProv] ∧
        e2.eid = e.eid ∧ e2.preferredLabel = e.preferredLabel ∧ e2.names = e.names) ∧
      (∀ b, b ≠ a → dfind (applyWdMatch authIdx u qid wd) b = dfind u b)) := by
  refine ⟨?_, ?_, ?_⟩
  · intro ids hids hlen
    unfold applyWdMatch
    rw [hids]
    cases ids with
    | nil => rfl
    | cons a t =>
        cases t with
        | nil => simp at hlen
        | cons b t2 => rfl
  · intro h
    unfold applyWdMatch
    rw [h]
  · intro a e hids he
    unfold applyWdMatch
    rw [hids]
    constructor
    · refine ⟨addWdIdentifier qid e, ?_, ?_, rfl, rfl, rfl, rfl⟩
      · rw [dfind_dmodify_self, he]
        rfl
      · exact dfind_dinsert_self e.identifiers "wikidata_qid" qid
    · intro b hb
      exact dfind_dmodify_ne u a b _ hb

/-- C2 witness: the Baldwin scenario, with the identifier added and the
provenance list grown from 1 to 2 entries. -/
theorem C2_witness_baldwin :
    (dfind (applyWdMatch [("baldwin", ["AUTH:1"])] [("AUTH:1", baldwinE)] "Q999" q999E)
        "AUTH:1").map (fun e => dfind e.identifiers "wikidata_qid") =
      some (some "Q999") ∧
    (dfind (applyWdMatch [("baldwin", ["AUTH:1"])] [("AUTH:1", baldwinE)] "Q999" q999E)
        "AUTH:1").map (fun e => e.provenance.length) = some 2 := by
  obtain ⟨⟨e2, he2, hq, hprov, -, -, -⟩, -⟩ :=
    (C2_unique_match_merges_ambiguous_skips [("baldwin", ["AUTH:1"])]
      [("AUTH:1", baldwinE)] "Q999" q999E).2.2 "AUTH:1" baldwinE (by decide) (by decide)
  rw [he2]
  refine ⟨by simp [hq], by simp [hprov, baldwinE]⟩

/-! ## Claim C7: merge monotonicity and authority preservation -/

theorem length_applyWdMatch (authIdx : List (String × List String))
    (u : List (String × Entity)) (qid : String) (wd : Entity) :
    (applyWdMatch authIdx u qid wd).length = u.length := by
  unfold applyWdMatch
  cases dfind authIdx (normaliseStr wd.preferredLabel) with
  | none => rfl
  | some ids =>
      cases ids with
      | nil => rfl
      | cons a t =>
          cases t with
          | nil => exact length_dmodify u a _
          | cons b t2 => rfl

theorem isSome_dfind_dmodify {α : Type} (u : List (String × α)) (k j : String)
    (f : α → α) (h : (dfind u j).isSome) : (dfind (dmodify u k f) j).isSome := by
  by_cases hj : j = k
  · subst hj
    rw [dfind_dmodify_self]
    cases hx : dfind u j with
    | none => rw [hx] at h; simp at h
    | some v => rfl
  · rwa [dfind_dmodify_ne u k j f hj]

theorem isSome_dfind_applyWdMatch (authIdx : List (String × List String))
    (u : List (String × Entity)) (qid : String) (wd : Entity) (j : String)
    (h : (dfind u j).isSome) : (dfind (applyWdMatch authIdx u qid wd) j).isSome := by
  unfold applyWdMatch
  cases dfind authIdx (normaliseStr wd.preferredLabel) with
  | none => exact h
  | some ids =>
      cases ids with
      | nil => exact h
      | cons a t =>
          cases t with
          | nil => exact isSome_dfind_dmodify u a j _ h
          | cons b t2 => exact h

theorem preservesIdentity_refl (e : Entity) : preservesIdentity e e :=
  ⟨rfl, rfl, rfl, rfl, rfl, List.prefix_refl _, fun _ _ => rfl⟩

theorem preservesIdentity_addWd (qid : String) (e e2 : Entity)
    (h : preservesIdentity e e2) : preservesIdentity e (addWdIdentifier qid e2) := by
  obtain ⟨h1, h2, h3, h4, h5, h6, h7⟩ := h
  refine ⟨h1, h2, h3, h4, h5, h6.trans (List.prefix_append _ _), ?_⟩
  intro ik hik
  rw [addWdIdentifier]
  show dfind (dinsert e2.identifiers "wikidata_qid" qid) ik = dfind e.identifiers ik
  rw [dfind_dinsert_ne _ _ _ _ hik]
  exact h7 ik hik

theorem applyWdMatch_preserves (authIdx : List (String × List String))
    (u : List (String × Entity)) (qid : String) (wd : Entity) (k : String) (e : Entity)
    (h : ∃ e2, dfind u k = some e2 ∧ preservesIdentity e e2) :
    ∃ e2, dfind (applyWdMatch authIdx u qid wd) k = some e2 ∧ preservesIdentity e e2 := by
  obtain ⟨e2, he2, hp⟩ := h
  unfold applyWdMatch
  cases dfind authIdx (normaliseStr wd.preferredLabel) with
  | none => exact ⟨e2, he2, hp⟩
  | some ids =>
      cases ids with
      | nil => exact ⟨e2, he2, hp⟩
      | cons a t =>
          cases t with
          | cons b t2 => exact ⟨e2, he2, hp⟩
          | nil =>
              by_cases hk : k = a
              · subst hk
                refine ⟨addWdIdentifier qid e2, ?_, preservesIdentity_addWd qid e e2 hp⟩
                rw [dfind_dmodify_self, he2]
                rfl
              · rw [dfind_dmodify_ne u a k _ hk]
                exact ⟨e2, he2, hp⟩

/-- C7.  Claim (corrected): the merge never shrinks the graph, authority
keys never vanish, and an authority entity whose id is outside the
WIKIDATA: and EXTRACTED: key namespaces keeps its identity (only its
identifier map and provenance are extended).  The original claim's
"steps 4-5 never overwrite existing entities" is refuted by the
slug-collision counterexample theorem below. -/
theorem C7_merge_monotone_amended (A W : List (String × Entity)) (E : List Mention) :
    A.length ≤ (match_persons A W E).length ∧
    (∀ k, (dfind A k).isSome → (dfind (match_persons A W E) k).isSome) ∧
    (∀ k e, dfind A k = some e →
      (∀ q, k ≠ "WIKIDATA:" ++ q) → (∀ n, k ≠ "EXTRACTED:" ++ n) →
      ∃ e2, dfind (match_persons A W E) k = some e2 ∧ preservesIdentity e e2) := by
  have hrep : match_persons A W E =
      E.foldl (processMention (buildAuthIndex A) (buildWdIndex W))
        (addWdPersons W
          (W.foldl (fun u kv => applyWdMatch (buildAuthIndex A) u kv.1 kv.2) A)) := rfl
  rw [hrep]
  refine ⟨?_, ?_, ?_⟩
  · have h1 : A.length ≤
        (W.foldl (fun u kv => applyWdMatch (buildAuthIndex A) u kv.1 kv.2) A).length := by
      apply foldl_preserve (fun u : List (String × Entity) => A.length ≤ u.length)
      · intro u x hu
        rw [length_applyWdMatch]
        exact hu
      · exact le_refl _
    have h2 : A.length ≤
        (addWdPersons W
          (W.foldl (fun u kv => applyWdMatch (buildAuthIndex A) u kv.1 kv.2) A)).length := by
      unfold addWdPersons
      apply foldl_preserve (fun u : List (String × Entity) => A.length ≤ u.length)
      · intro u x hu
        by_cases hf : wdAlreadyFlag u
        · simpa [hf] using hu
        · simp only [hf, if_false, Bool.false_eq_true]
          exact le_trans hu (length_le_dinsert u _ _)
      · exact h1
    apply foldl_preserve (fun u : List (String × Entity) => A.length ≤ u.length)
    · intro u m hu
      unfold processMention
      split_ifs with hs hm
      · exact hu
      · exact hu
      · exact le_trans hu (length_le_dinsert u _ _)
    · exact h2
  · intro k hk
    have h1 : (dfind (W.foldl (fun u kv => applyWdMatch (buildAuthIndex A) u kv.1 kv.2) A)
        k).isSome := by
      apply foldl_preserve (fun u : List (String × Entity) => (dfind u k).isSome = true)
      · intro u x hu
        exact isSome_dfind_applyWdMatch _ u x.1 x.2 k hu
      · exact hk
    have h2 : (dfind (addWdPersons W
        (W.foldl (fun u kv => applyWdMatch (buildAuthIndex A) u kv.1 kv.2) A)) k).isSome := by
      unfold addWdPersons
      apply foldl_preserve (fun u : List (String × Entity) => (dfind u k).isSome = true)
      · intro u x hu
        by_cases hf : wdAlreadyFlag u
        · simpa [hf] using hu
        · simp only [hf, if_false, Bool.false_eq_true]
          exact isSome_dfind_dinsert u _ k _ hu
      · exact h1
    apply foldl_preserve (fun u : List (String × Entity) => (dfind u k).isSome = true)
    · intro u m hu
      unfold processMention
      split_ifs with hs hm
      · exact hu
      · exact hu
      · exact isSome_dfind_dinsert u _ k _ hu
    · exact h2
  · intro k e hke hW hE
    have h1 : ∃ e2, dfind (W.foldl (fun u kv => applyWdMatch (buildAuthIndex A) u kv.1 kv.2) A)
        k = some e2 ∧ preservesIdentity e e2 := by
      apply foldl_preserve (fun u : List (String × Entity) => ∃ e2, dfind u k = some e2 ∧ preservesIdentity e e2)
      · intro u x hu
        exact applyWdMatch_preserves _ u x.1 x.2 k e hu
      · exact ⟨e, hke, preservesIdentity_refl e⟩
    have h2 : ∃ e2, dfind (addWdPersons W
        (W.foldl (fun u kv => applyWdMatch (buildAuthIndex A) u kv.1 kv.2) A)) k = some e2 ∧
        preservesIdentity e e2 := by
      unfold addWdPersons
      apply foldl_preserve (fun u : List (String × Entity) => ∃ e2, dfind u k = some e2 ∧ preservesIdentity e e2)
      · intro u x hu
        by_cases hf : wdAlreadyFlag u
        · simpa [hf] using hu
        · simp only [hf, if_false, Bool.false_eq_true]
          obtain ⟨e2, he2, hp⟩ := hu
          rw [dfind_dinsert_ne u _ k _ (hW x.1)]
          exact ⟨e2, he2, hp⟩
      · exact h1
    apply foldl_preserve (fun u : List (String × Entity) => ∃ e2, dfind u k = some e2 ∧ preservesIdentity e e2)
    · intro u m hu
      unfold processMention
      split_ifs with hs hm
      · exact hu
      · exact hu
      · obtain ⟨e2, he2, hp⟩ := hu
        rw [dfind_dinsert_ne u _ k _ (hE (slugify m.name))]
        exact ⟨e2, he2, hp⟩
    · exact h2

/-- C7 counterexample to the claim as stated: the two distinct mentions
"John." and "John!" slugify to the same id, so step 5 overwrites the entity
created for the first with the entity of the second; steps 4-5 are not
purely additive. -/
theorem C7_counterexample_slug_overwrite :
    (dfind (match_persons [] [] [{ name := "John." }]) "EXTRACTED:john").map
      (fun e => e.preferredLabel) = some "John." ∧
    (dfind (match_persons [] [] [{ name := "John." }, { name := "John!" }])
        "EXTRACTED:john").map (fun e => e.preferredLabel) = some "John!" ∧
    (match_persons [] [] [{ name := "John." }, { name := "John!" }]).length = 1 :=
  ⟨by decide, by decide, by decide⟩

/-- C7 witness: the Baldwin scenario graph keeps its authority entity. -/
theorem C7_witness_baldwin :
    1 ≤ (match_persons [("AUTH:1", baldwinE)] [("Q999", q999E)] []).length ∧
    (dfind (match_persons [("AUTH:1", baldwinE)] [("Q999", q999E)] []) "AUTH:1").map
      (fun e => e.preferredLabel) = some "Baldwin" := by
  have h := C7_merge_monotone_amended [("AUTH:1", baldwinE)] [("Q999", q999E)] []
  constructor
  · simpa using h.1
  · obtain ⟨e2, he2, hp⟩ := h.2.2 "AUTH:1" baldwinE (by decide)
      (fun q hq => by
        have hlen := congrArg String.length hq
        rw [String.length_append] at hlen
        have h6 : String.length "AUTH:1" = 6 := rfl
        have h9 : String.length "WIKIDATA:" = 9 := rfl
        omega)
      (fun n hn => by
        have hlen := congrArg String.length hn
        rw [String.length_append] at hlen
        have h6 : String.length "AUTH:1" = 6 := rfl
        have h10 : String.length "EXTRACTED:" = 10 := rfl
        omega)
    rw [he2]
    have : e2.preferredLabel = baldwinE.preferredLabel := hp.2.1
    simp [this, baldwinE]
